import Mathlib

/-!
Verification of the equivalence-matcher core of this repository
(scripts/tools/debug-true-in-code.py) against its natural-language
specification.

The Python core is possiblyEquals(s1, s2), a recursive search dfs(i, j, diff)
over two cursor positions and a signed imbalance counter, together with a
helper get_options(segment) that enumerates the values of a digit run split
into up to three consecutive sub-segments.

Modelling choices of the shallow embedding:
  - Python strings are List Char; s[i] (always guarded by bounds checks in
    the source) is List.getD with an arbitrary default character.
  - Python isalpha and isdigit are Char.isAlpha and Char.isDigit (the inputs
    of interest are ASCII, where they coincide with the Python notions).
  - A computation that can raise ValueError (the int conversion applied to an
    empty slice inside get_options) lives in Except Unit.
  - The unbounded Python recursion of dfs is modelled with explicit fuel in
    Option (Except Unit Bool): none means the fuel ran out, and a separate
    theorem shows fuel length s1 + length s2 + 1 always suffices, which is
    exactly the recursion-depth bound claimed by the specification.
  - The three nested for loops of get_options, with their break statements,
    are kLoop, jLoop and iLoop over explicit Python ranges; the two loops
    with early return inside dfs are tryVals and trySegs.
-/

/-- Python int(s) on a slice of a digit run: raises (error) on the empty
string, otherwise the decimal value. -/
def pyInt (s : List Char) : Except Unit Nat :=
  if s.isEmpty || !s.all Char.isDigit then .error ()
  else .ok (s.foldl (fun a c => a * 10 + (c.toNat - 48)) 0)

/-- Innermost loop of get_options: for k in range(j, n+1), with the three
conditional append-and-break branches of the source. Slices follow Python:
segment[:i] is take i, segment[i:j] is (take j).drop i, segment[j:] is
drop j. -/
def kLoop (seg : List Char) (n i j : Nat) (res : List Nat) : List Nat → Except Unit (List Nat)
  | [] => .ok res
  | k :: ks =>
    if i = n then do
      let v ← pyInt seg
      .ok (res ++ [v])
    else if j = n then do
      let a ← pyInt (seg.take i)
      let b ← pyInt (seg.drop i)
      .ok (res ++ [a + b])
    else if k = n then do
      let a ← pyInt (seg.take i)
      let b ← pyInt ((seg.take j).drop i)
      let c ← pyInt (seg.drop j)
      .ok (res ++ [a + b + c])
    else kLoop seg n i j res ks

/-- Middle loop of get_options: for j in range(i, n+1). -/
def jLoop (seg : List Char) (n i : Nat) (res : List Nat) : List Nat → Except Unit (List Nat)
  | [] => .ok res
  | j :: js => do
      let res2 ← kLoop seg n i j res (List.range' j (n + 1 - j))
      jLoop seg n i res2 js

/-- Outer loop of get_options: for i in range(1, n+1). -/
def iLoop (seg : List Char) (n : Nat) (res : List Nat) : List Nat → Except Unit (List Nat)
  | [] => .ok res
  | i :: is2 => do
      let res2 ← jLoop seg n i res (List.range' i (n + 1 - i))
      iLoop seg n res2 is2

/-- get_options(segment) of the source: [0] for the empty segment, otherwise
the triple loop over split positions. The computation is in Except because
the three-part branch applies int to segment[i:j] which is empty whenever
j = i, raising ValueError. -/
def get_options (seg : List Char) : Except Unit (List Nat) :=
  if seg.isEmpty then .ok [0]
  else iLoop seg seg.length [] (List.range' 1 seg.length)

/-- The num_seg collection loop of dfs: starting at position p, gather
consecutive digit characters, stopping at a non-digit, at the end of the
string, or after the fourth digit has been appended (the source appends and
then breaks once the length exceeds 3, so up to four digits are kept). -/
def numSegAt (s : List Char) (p : Nat) : List Char :=
  ((s.drop p).takeWhile Char.isDigit).take 4

/-- Inner loop of the digit branches of dfs: for val in vals, return True as
soon as a recursive call succeeds, propagating a raised error or exhausted
fuel; falling through yields False (meaning: continue the outer loop). -/
def tryVals (f : Nat → Option (Except Unit Bool)) : List Nat → Option (Except Unit Bool)
  | [] => some (.ok false)
  | v :: vs =>
    match f v with
    | some (.ok true) => some (.ok true)
    | some (.ok false) => tryVals f vs
    | r => r

/-- Outer loop of the digit branches of dfs: for seg_len in
range(1, len(num_seg)+1), evaluate get_options on the prefix of that length
(propagating a raised error) and run the inner loop; when every branch
fails the loop falls through and the Python function returns False. -/
def trySegs (numSeg : List Char) (g : Nat → Nat → Option (Except Unit Bool)) :
    List Nat → Option (Except Unit Bool)
  | [] => some (.ok false)
  | L :: Ls =>
    match get_options (numSeg.take L) with
    | .error e => some (.error e)
    | .ok vals =>
      match tryVals (g L) vals with
      | some (.ok false) => trySegs numSeg g Ls
      | r => r

/-- dfs(i, j, diff) of the source, with explicit fuel bounding the recursion
depth. Branch for branch: the base case returns diff == 0; at diff = 0 both
cursors must point at equal alphabetic characters or the call returns False;
at diff > 0 the j side consumes a letter or a digit run via trySegs; the
final branch (diff < 0) is symmetric on the i side. -/
def dfs (s1 s2 : List Char) : Nat → Nat → Nat → Int → Option (Except Unit Bool)
  | 0, _, _, _ => none
  | fuel + 1, i, j, diff =>
    if i = s1.length ∧ j = s2.length then some (.ok (decide (diff = 0)))
    else if diff = 0 then
      if i < s1.length ∧ j < s2.length ∧
          (s1.getD i ' ').isAlpha = true ∧ (s2.getD j ' ').isAlpha = true then
        if s1.getD i ' ' ≠ s2.getD j ' ' then some (.ok false)
        else dfs s1 s2 fuel (i + 1) (j + 1) 0
      else some (.ok false)
    else if 0 < diff then
      if s2.length ≤ j then some (.ok false)
      else if (s2.getD j ' ').isAlpha then dfs s1 s2 fuel i (j + 1) (diff - 1)
      else
        trySegs (numSegAt s2 j)
          (fun L v => dfs s1 s2 fuel i (j + L) (diff - (v : Int)))
          (List.range' 1 (numSegAt s2 j).length)
    else
      if s1.length ≤ i then some (.ok false)
      else if (s1.getD i ' ').isAlpha then dfs s1 s2 fuel (i + 1) j (diff + 1)
      else
        trySegs (numSegAt s1 i)
          (fun L v => dfs s1 s2 fuel (i + L) j (diff + (v : Int)))
          (List.range' 1 (numSegAt s1 i).length)

/-- possiblyEquals(s1, s2) = dfs(0, 0, 0), supplied with enough fuel for the
recursion-depth bound length s1 + length s2 proved below. -/
def possiblyEquals (s1 s2 : List Char) : Option (Except Unit Bool) :=
  dfs s1 s2 (s1.length + s2.length + 1) 0 0 0

/-- Reference function: two strings match in the synchronized diff = 0 regime
exactly when they are equal position by position and every character is
alphabetic. Proved below to coincide with dfs at diff = 0. -/
def syncMatch : List Char → List Char → Bool
  | [], [] => true
  | a :: xs, b :: ys => a.isAlpha && b.isAlpha && (a == b) && syncMatch xs ys
  | _, _ => false

/-- Well-formed input per the specification: every character is a lowercase
ASCII letter or an ASCII digit. -/
def wellFormed (s : List Char) : Bool :=
  s.all fun c => c.isLower || c.isDigit

/-- One recursive call of dfs, read off the call sites of the source: each
constructor is one call site, guarded by the conditions on the execution
path leading to it. The sync constructor is the single call in the diff = 0
branch; posAlpha and posDigit are the two call sites of the diff > 0 branch
(the digit one with every choice of prefix length seg_len and enumerated
value val for which get_options returns normally); negAlpha and negDigit are
their mirror images in the diff < 0 branch. -/
inductive CallStep (s1 s2 : List Char) : Nat × Nat × Int → Nat × Nat × Int → Prop
  | sync (i j : Nat) :
      ¬(i = s1.length ∧ j = s2.length) →
      i < s1.length → j < s2.length →
      (s1.getD i ' ').isAlpha = true → (s2.getD j ' ').isAlpha = true →
      s1.getD i ' ' = s2.getD j ' ' →
      CallStep s1 s2 (i, j, 0) (i + 1, j + 1, 0)
  | posAlpha (i j : Nat) (diff : Int) :
      ¬(i = s1.length ∧ j = s2.length) → 0 < diff → j < s2.length →
      (s2.getD j ' ').isAlpha = true →
      CallStep s1 s2 (i, j, diff) (i, j + 1, diff - 1)
  | posDigit (i j : Nat) (diff : Int) (L v : Nat) (vals : List Nat) :
      ¬(i = s1.length ∧ j = s2.length) → 0 < diff → j < s2.length →
      (s2.getD j ' ').isAlpha = false →
      L ∈ List.range' 1 (numSegAt s2 j).length →
      get_options ((numSegAt s2 j).take L) = .ok vals → v ∈ vals →
      CallStep s1 s2 (i, j, diff) (i, j + L, diff - (v : Int))
  | negAlpha (i j : Nat) (diff : Int) :
      ¬(i = s1.length ∧ j = s2.length) → diff < 0 → i < s1.length →
      (s1.getD i ' ').isAlpha = true →
      CallStep s1 s2 (i, j, diff) (i + 1, j, diff + 1)
  | negDigit (i j : Nat) (diff : Int) (L v : Nat) (vals : List Nat) :
      ¬(i = s1.length ∧ j = s2.length) → diff < 0 → i < s1.length →
      (s1.getD i ' ').isAlpha = false →
      L ∈ List.range' 1 (numSegAt s1 i).length →
      get_options ((numSegAt s1 i).take L) = .ok vals → v ∈ vals →
      CallStep s1 s2 (i, j, diff) (i + L, j, diff + (v : Int))

/-- States of dfs reachable from the top-level call dfs(0, 0, 0) made by
possiblyEquals. -/
def Reachable (s1 s2 : List Char) (st : Nat × Nat × Int) : Prop :=
  Relation.ReflTransGen (CallStep s1 s2) (0, 0, 0) st

theorem drop_eq_getD_cons {α : Type} (d : α) :
    ∀ (l : List α) (n : Nat), n < l.length → l.drop n = l.getD n d :: l.drop (n + 1) := by
  intro l
  induction l with
  | nil => intro n h; simp at h
  | cons a l ih =>
    intro n h
    cases n with
    | zero => simp
    | succ n =>
      have := ih n (by simpa using h)
      simpa using this

theorem isUpper_false_of_isDigit {c : Char} (h : c.isDigit = true) : c.isUpper = false := by
  simp [Char.isDigit, Char.isUpper, UInt32.le_def, UInt32.lt_def, BitVec.le_def,
    BitVec.lt_def] at *
  omega

theorem isLower_false_of_isDigit {c : Char} (h : c.isDigit = true) : c.isLower = false := by
  simp [Char.isDigit, Char.isLower, UInt32.le_def, UInt32.lt_def, BitVec.le_def,
    BitVec.lt_def] at *
  omega

theorem isAlpha_of_isLower {c : Char} (h : c.isLower = true) : c.isAlpha = true := by
  simp [Char.isAlpha, h]

theorem isAlpha_false_of_isDigit {c : Char} (h : c.isDigit = true) : c.isAlpha = false := by
  simp [Char.isAlpha, isUpper_false_of_isDigit h, isLower_false_of_isDigit h]

theorem isLower_of_isAlpha_of_wf {c : Char} (hwf : c.isLower = true ∨ c.isDigit = true)
    (h : c.isAlpha = true) : c.isLower = true := by
  rcases hwf with hl | hd
  · exact hl
  · rw [isAlpha_false_of_isDigit hd] at h
    exact absurd h (by simp)

theorem wellFormed_mem {s : List Char} (h : wellFormed s = true) :
    ∀ c ∈ s, c.isLower = true ∨ c.isDigit = true := by
  intro c hc
  have := (List.all_eq_true.mp h) c hc
  simpa using this

theorem syncMatch_eq_true_iff (xs ys : List Char) :
    syncMatch xs ys = true ↔ xs = ys ∧ ∀ c ∈ xs, c.isAlpha = true := by
  induction xs generalizing ys with
  | nil => cases ys <;> simp [syncMatch]
  | cons a xs ih =>
    cases ys with
    | nil => simp [syncMatch]
    | cons b ys =>
      simp only [syncMatch, Bool.and_eq_true, beq_iff_eq, ih, List.cons_eq_cons,
        List.forall_mem_cons]
      constructor
      · rintro ⟨⟨⟨ha, hb⟩, rfl⟩, rfl, hall⟩
        exact ⟨⟨rfl, rfl⟩, ha, hall⟩
      · rintro ⟨⟨rfl, rfl⟩, ha, hall⟩
        exact ⟨⟨⟨ha, ha⟩, rfl⟩, rfl, hall⟩

theorem syncMatch_comm (xs ys : List Char) : syncMatch xs ys = syncMatch ys xs := by
  cases hb : syncMatch xs ys with
  | true =>
    obtain ⟨rfl, _⟩ := (syncMatch_eq_true_iff xs ys).mp hb
    exact hb.symm
  | false =>
    cases hb2 : syncMatch ys xs with
    | false => rfl
    | true =>
      obtain ⟨rfl, _⟩ := (syncMatch_eq_true_iff ys xs).mp hb2
      rw [hb] at hb2
      exact absurd hb2 (by simp)

theorem dfs_sync (s1 s2 : List Char) :
    ∀ fuel i j, i ≤ s1.length → j ≤ s2.length →
      s1.length - i + (s2.length - j) < fuel →
      dfs s1 s2 fuel i j 0 = some (.ok (syncMatch (s1.drop i) (s2.drop j))) := by
  intro fuel
  induction fuel with
  | zero => intro i j _ _ h; omega
  | succ fuel ih =>
    intro i j hi hj hfuel
    by_cases hbase : i = s1.length ∧ j = s2.length
    · obtain ⟨h1, h2⟩ := hbase
      simp [dfs, h1, h2, List.drop_length, syncMatch]
    · by_cases hg : i < s1.length ∧ j < s2.length ∧
          (s1.getD i ' ').isAlpha = true ∧ (s2.getD j ' ').isAlpha = true
      · obtain ⟨hi1, hj1, ha1, ha2⟩ := hg
        rw [drop_eq_getD_cons ' ' s1 i hi1, drop_eq_getD_cons ' ' s2 j hj1]
        by_cases heq : s1.getD i ' ' = s2.getD j ' '
        · have hrec := ih (i + 1) (j + 1) (by omega) (by omega) (by omega)
          simp only [dfs, if_neg hbase]
          rw [if_true, if_pos ⟨hi1, hj1, ha1, ha2⟩, if_neg (by simpa using heq)]
          rw [hrec]
          simp only [syncMatch, heq, ha2, beq_self_eq_true, Bool.true_and, Bool.and_true]
        · simp only [dfs, if_neg hbase]
          rw [if_true, if_pos ⟨hi1, hj1, ha1, ha2⟩, if_pos heq]
          simp only [syncMatch, beq_eq_false_iff_ne.mpr heq, Bool.false_and, Bool.and_false]
      · simp only [dfs, if_neg hbase]
        rw [if_true, if_neg hg]
        rcases Nat.lt_or_ge i s1.length with hi1 | hi1
        · rcases Nat.lt_or_ge j s2.length with hj1 | hj1
          · rw [drop_eq_getD_cons ' ' s1 i hi1, drop_eq_getD_cons ' ' s2 j hj1]
            by_cases ha1 : (s1.getD i ' ').isAlpha = true
            · have ha2 : (s2.getD j ' ').isAlpha = false := by
                rcases Bool.eq_false_or_eq_true (s2.getD j ' ').isAlpha with h | h
                · exact absurd ⟨hi1, hj1, ha1, h⟩ hg
                · exact h
              simp only [syncMatch, ha2, Bool.false_and, Bool.and_false]
            · have ha1f : (s1.getD i ' ').isAlpha = false := Bool.eq_false_iff.mpr ha1
              simp only [syncMatch, ha1f, Bool.false_and]
          · have hj2 : j = s2.length := by omega
            rw [drop_eq_getD_cons ' ' s1 i hi1, hj2, List.drop_length]
            simp [syncMatch]
        · have hi2 : i = s1.length := by omega
          have hj1 : j < s2.length := by
            rcases Nat.lt_or_ge j s2.length with h | h
            · exact h
            · exact absurd ⟨hi2, by omega⟩ hbase
          rw [hi2, List.drop_length, drop_eq_getD_cons ' ' s2 j hj1]
          simp [syncMatch]

theorem tryVals_ne_none (f : Nat → Option (Except Unit Bool)) :
    ∀ vs : List Nat, (∀ v ∈ vs, f v ≠ none) → tryVals f vs ≠ none := by
  intro vs
  induction vs with
  | nil => intro _; simp [tryVals]
  | cons v vs ih =>
    intro h
    have hv : f v ≠ none := h v (List.mem_cons_self v vs)
    simp only [tryVals]
    rcases hfv : f v with _ | r
    · exact absurd hfv hv
    · rcases r with e | b
      · simp
      · cases b
        · exact ih fun w hw => h w (List.mem_cons_of_mem v hw)
        · simp

theorem trySegs_ne_none (numSeg : List Char) (g : Nat → Nat → Option (Except Unit Bool)) :
    ∀ Ls : List Nat, (∀ L ∈ Ls, ∀ v, g L v ≠ none) → trySegs numSeg g Ls ≠ none := by
  intro Ls
  induction Ls with
  | nil => intro _; simp [trySegs]
  | cons L Ls ih =>
    intro h
    rcases hopt : get_options (numSeg.take L) with e | vals
    · simp [trySegs, hopt]
    · have htv : tryVals (g L) vals ≠ none :=
        tryVals_ne_none (g L) vals fun v _ => h L (List.mem_cons_self L Ls) v
      rcases htv2 : tryVals (g L) vals with _ | r
      · exact absurd htv2 htv
      · rcases r with e | b
        · simp [trySegs, hopt, htv2]
        · cases b
          · have hrest := ih fun M hM v => h M (List.mem_cons_of_mem L hM) v
            simpa [trySegs, hopt, htv2] using hrest
          · simp [trySegs, hopt, htv2]

theorem dfs_ne_none (s1 s2 : List Char) :
    ∀ fuel i j (diff : Int), s1.length - i + (s2.length - j) < fuel →
      dfs s1 s2 fuel i j diff ≠ none := by
  intro fuel
  induction fuel with
  | zero => intro i j diff h; omega
  | succ fuel ih =>
    intro i j diff hfuel
    simp only [dfs]
    by_cases hbase : i = s1.length ∧ j = s2.length
    · rw [if_pos hbase]; simp
    · rw [if_neg hbase]
      by_cases hd0 : diff = 0
      · rw [if_pos hd0]
        by_cases hg : i < s1.length ∧ j < s2.length ∧
            (s1.getD i ' ').isAlpha = true ∧ (s2.getD j ' ').isAlpha = true
        · rw [if_pos hg]
          by_cases heq : s1.getD i ' ' ≠ s2.getD j ' '
          · rw [if_pos heq]; simp
          · rw [if_neg heq]
            exact ih (i + 1) (j + 1) 0 (by omega)
        · rw [if_neg hg]; simp
      · rw [if_neg hd0]
        by_cases hpos : 0 < diff
        · rw [if_pos hpos]
          by_cases hj : s2.length ≤ j
          · rw [if_pos hj]; simp
          · rw [if_neg hj]
            by_cases ha : (s2.getD j ' ').isAlpha = true
            · rw [if_pos ha]
              exact ih i (j + 1) (diff - 1) (by omega)
            · rw [if_neg ha]
              apply trySegs_ne_none
              intro L hL v
              have hL1 : 1 ≤ L := ((List.mem_range'_1).mp hL).1
              exact ih i (j + L) (diff - (v : Int)) (by omega)
        · rw [if_neg hpos]
          by_cases hi : s1.length ≤ i
          · rw [if_pos hi]; simp
          · rw [if_neg hi]
            by_cases ha : (s1.getD i ' ').isAlpha = true
            · rw [if_pos ha]
              exact ih (i + 1) j (diff + 1) (by omega)
            · rw [if_neg ha]
              apply trySegs_ne_none
              intro L hL v
              have hL1 : 1 ≤ L := ((List.mem_range'_1).mp hL).1
              exact ih (i + L) j (diff + (v : Int)) (by omega)

/-- The top-level possiblyEquals call always returns normally, with the value
of syncMatch on the two whole strings: the strings are equal and entirely
alphabetic, or the result is False. -/
theorem possiblyEquals_eval (s1 s2 : List Char) :
    possiblyEquals s1 s2 = some (.ok (syncMatch s1 s2)) := by
  have h := dfs_sync s1 s2 (s1.length + s2.length + 1) 0 0 (by omega) (by omega) (by omega)
  simpa [possiblyEquals] using h

theorem reachable_third_eq_zero (s1 s2 : List Char) :
    ∀ st, Reachable s1 s2 st → st.2.2 = 0 := by
  intro st h
  induction h with
  | refl => rfl
  | tail hsteps hstep ih =>
    cases hstep with
    | sync => rfl
    | posAlpha i j diff _ hd _ _ => simp at ih; omega
    | posDigit i j diff L v vals _ hd _ _ _ _ _ => simp at ih; omega
    | negAlpha i j diff _ hd _ _ => simp at ih; omega
    | negDigit i j diff L v vals _ hd _ _ _ _ _ => simp at ih; omega

/-- C7: in every recursive call of dfs reachable from the top-level call
dfs(0, 0, 0) made by possiblyEquals, the diff argument equals 0, and from any
reachable state the only call the body can issue is the synchronized one that
advances both cursors and keeps diff at 0; consequently the diff > 0 and
diff < 0 branches, and with them the helper get_options, are never executed
through the public entry point. -/
theorem reachable_diff_eq_zero (s1 s2 : List Char) (i j : Nat) (d : Int)
    (h : Reachable s1 s2 (i, j, d)) :
    d = 0 ∧ ∀ i2 j2 d2, CallStep s1 s2 (i, j, d) (i2, j2, d2) →
      i2 = i + 1 ∧ j2 = j + 1 ∧ d2 = 0 := by
  have hd : d = 0 := reachable_third_eq_zero s1 s2 (i, j, d) h
  subst hd
  refine ⟨rfl, ?_⟩
  intro i2 j2 d2 hstep
  cases hstep
  all_goals first
    | exact ⟨rfl, rfl, rfl⟩
    | omega

/-- Witness for C7 at the concrete reachable start state (0, 0, 0). -/
theorem reachable_diff_eq_zero_witness :
    (0 : Int) = 0 ∧ ∀ i2 j2 d2, CallStep ['a'] ['a'] (0, 0, 0) (i2, j2, d2) →
      i2 = 0 + 1 ∧ j2 = 0 + 1 ∧ d2 = 0 :=
  reachable_diff_eq_zero ['a'] ['a'] 0 0 0 Relation.ReflTransGen.refl

/-- C1: for well-formed inputs, possiblyEquals returns True exactly when the
two strings are equal and every character of the first is a lowercase
letter (the both-empty pair included); identical strings containing a digit
character yield False. -/
theorem possiblyEquals_true_iff (s1 s2 : List Char)
    (h1 : wellFormed s1 = true) (h2 : wellFormed s2 = true) :
    (possiblyEquals s1 s2 = some (.ok true) ↔ s1 = s2 ∧ ∀ c ∈ s1, c.isLower = true)
    ∧ (s1 = s2 → (∃ c ∈ s1, c.isDigit = true) →
        possiblyEquals s1 s2 = some (.ok false)) := by
  have hwf1 := wellFormed_mem h1
  constructor
  · rw [possiblyEquals_eval]
    simp only [Option.some.injEq, Except.ok.injEq]
    rw [syncMatch_eq_true_iff]
    constructor
    · rintro ⟨rfl, hall⟩
      exact ⟨rfl, fun c hc => isLower_of_isAlpha_of_wf (hwf1 c hc) (hall c hc)⟩
    · rintro ⟨rfl, hall⟩
      exact ⟨rfl, fun c hc => isAlpha_of_isLower (hall c hc)⟩
  · rintro rfl ⟨c, hc, hcd⟩
    rw [possiblyEquals_eval]
    have hfalse : syncMatch s1 s1 = false := by
      cases hb : syncMatch s1 s1 with
      | false => rfl
      | true =>
        obtain ⟨_, hall⟩ := (syncMatch_eq_true_iff s1 s1).mp hb
        have := hall c hc
        rw [isAlpha_false_of_isDigit hcd] at this
        exact absurd this (by simp)
    rw [hfalse]

/-- Witness for C1 on the concrete pair of singleton strings a, a. -/
theorem possiblyEquals_true_iff_witness :
    wellFormed ['a'] = true ∧
    ((possiblyEquals ['a'] ['a'] = some (.ok true) ↔
        ['a'] = ['a'] ∧ ∀ c ∈ ['a'], c.isLower = true)
      ∧ (['a'] = ['a'] → (∃ c ∈ ['a'], c.isDigit = true) →
          possiblyEquals ['a'] ['a'] = some (.ok false))) :=
  ⟨by decide, possiblyEquals_true_iff ['a'] ['a'] (by decide) (by decide)⟩

/-- C2 evidence: the well-formed string 5 compared with itself yields False,
although the specification states that equivalent(s, s) is True for every
well-formed s. This records the code bug at a concrete failing input. -/
theorem possiblyEquals_refl_digit_false :
    wellFormed ['5'] = true ∧ possiblyEquals ['5'] ['5'] = some (.ok false) :=
  ⟨by decide, rfl⟩

/-- C3 evidence: the code returns False on the pair (a5, a00005), although
the specification states that this pair is equivalent; the second conjunct
records that the pair (a5, a6) indeed yields False as the claim states. -/
theorem possiblyEquals_a5_examples :
    possiblyEquals ['a', '5'] ['a', '0', '0', '0', '0', '5'] = some (.ok false)
    ∧ possiblyEquals ['a', '5'] ['a', '6'] = some (.ok false) :=
  ⟨rfl, rfl⟩

/-- C4 evidence: the code returns False on the pair (1, 01), although the
specification states that the search enters the digit run at imbalance 0 and
that this pair is equivalent; in the code a digit at the cursor while
diff = 0 fails immediately. -/
theorem possiblyEquals_one_zeroone_false :
    possiblyEquals ['1'] ['0', '1'] = some (.ok false) :=
  rfl

/-- C5 evidence: get_options raises ValueError on the two-character run 12
(the three-part branch applies int to the empty middle slice when the first
two split points coincide), instead of returning the claimed value set
containing 12 and 3; on a single-character run it still returns the literal
value, as the second conjunct records. -/
theorem get_options_raises_on_12 :
    get_options ['1', '2'] = .error () ∧ get_options ['5'] = .ok [5] :=
  ⟨rfl, rfl⟩

/-- C6: for well-formed inputs, possiblyEquals never raises and never runs
out of the recursion-depth budget: it returns a boolean. -/
theorem possiblyEquals_never_raises (s1 s2 : List Char)
    (h1 : wellFormed s1 = true) (h2 : wellFormed s2 = true) :
    ∃ b : Bool, possiblyEquals s1 s2 = some (.ok b) :=
  ⟨syncMatch s1 s2, possiblyEquals_eval s1 s2⟩

/-- Witness for C6 on the concrete pair (a, 1). -/
theorem possiblyEquals_never_raises_witness :
    (wellFormed ['a'] = true ∧ wellFormed ['1'] = true) ∧
    ∃ b : Bool, possiblyEquals ['a'] ['1'] = some (.ok b) :=
  ⟨⟨by decide, by decide⟩, possiblyEquals_never_raises ['a'] ['1'] (by decide) (by decide)⟩

/-- C8: for digit-free strings (lowercase letters only, possibly empty),
possiblyEquals returns True exactly when the strings are equal. -/
theorem possiblyEquals_letters_iff (s1 s2 : List Char)
    (h1 : s1.all Char.isLower = true) (h2 : s2.all Char.isLower = true) :
    possiblyEquals s1 s2 = some (.ok true) ↔ s1 = s2 := by
  rw [possiblyEquals_eval]
  simp only [Option.some.injEq, Except.ok.injEq]
  rw [syncMatch_eq_true_iff]
  constructor
  · rintro ⟨rfl, _⟩
    rfl
  · rintro rfl
    exact ⟨rfl, fun c hc => isAlpha_of_isLower ((List.all_eq_true.mp h1) c hc)⟩

/-- Witness for C8 on the concrete pair (ab, ab). -/
theorem possiblyEquals_letters_iff_witness :
    (['a', 'b'].all Char.isLower = true) ∧
    (possiblyEquals ['a', 'b'] ['a', 'b'] = some (.ok true) ↔ ['a', 'b'] = ['a', 'b']) :=
  ⟨by decide, possiblyEquals_letters_iff ['a', 'b'] ['a', 'b'] (by decide) (by decide)⟩

/-- C9: possiblyEquals is symmetric on well-formed pairs. -/
theorem possiblyEquals_symm (s1 s2 : List Char)
    (h1 : wellFormed s1 = true) (h2 : wellFormed s2 = true) :
    possiblyEquals s1 s2 = possiblyEquals s2 s1 := by
  rw [possiblyEquals_eval, possiblyEquals_eval, syncMatch_comm]

/-- Witness for C9 on the concrete pair (a1, a). -/
theorem possiblyEquals_symm_witness :
    (wellFormed ['a', '1'] = true ∧ wellFormed ['a'] = true) ∧
    possiblyEquals ['a', '1'] ['a'] = possiblyEquals ['a'] ['a', '1'] :=
  ⟨⟨by decide, by decide⟩, possiblyEquals_symm ['a', '1'] ['a'] (by decide) (by decide)⟩

/-- C10: the search terminates within recursion depth bounded by the total
input length: from any state (i, j, diff), fuel exceeding the remaining
length of both strings is never exhausted, since every recursive step of dfs
advances at least one cursor by at least one character. In particular the
fuel used by possiblyEquals, length s1 + length s2 + 1, always suffices. -/
theorem dfs_depth_bounded (s1 s2 : List Char) (fuel i j : Nat) (diff : Int)
    (h : s1.length - i + (s2.length - j) < fuel) :
    dfs s1 s2 fuel i j diff ≠ none :=
  dfs_ne_none s1 s2 fuel i j diff h

/-- Witness for C10 on a concrete state with nonzero diff. -/
theorem dfs_depth_bounded_witness :
    (List.length ['a'] - 0 + (List.length ['b'] - 0) < 3) ∧
    dfs ['a'] ['b'] 3 0 0 5 ≠ none :=
  ⟨by decide, dfs_depth_bounded ['a'] ['b'] 3 0 0 5 (by decide)⟩
